import Mathlib

/-!
Verification of the `password` Go library (chawld/password), a random password
generator.  The Go source (`password.go`) is shallowly embedded below:

* Go `uint` values are modelled as `Nat`; unsigned wrap-around is modelled
  explicitly at the one place reachable executions depend on it (the
  `n - 1` loop bound in `shuffle`, which underflows when `n = 0`).
* The `Random` interface (`Get(max uint) (uint, error)`) is modelled as a
  deterministic oracle `Nat → Nat → Option Nat`: the first argument is the
  index of the call (how many `Get` calls happened before), the second the
  requested bound; `none` models the provider returning an error.
* Every embedded operation returns, besides its Go result, the index of the
  next provider call and the list of bounds it passed to the provider, so
  that claims about which provider calls are made can be stated.
* A Go run-time panic (slice index out of range) is modelled by the
  distinguished outcome `Res.oob`.
-/

/-- Errors of the library: `InvalidLengthErr`, `NoCharactersErr`, and a
provider failure (the Go code propagates the provider's own error value;
here all provider errors are collapsed into one constructor). -/
inductive GenError where
  | invalidLength
  | noChars
  | providerErr
deriving DecidableEq, Repr

/-- Outcome of an embedded Go computation: a result, an error, or a
run-time panic (out-of-bounds slice index). -/
inductive Res (α : Type) where
  | ok : α → Res α
  | err : GenError → Res α
  | oob : Res α
deriving DecidableEq, Repr

/-- The `Random` interface: call index → requested bound → result.
`none` models the provider returning an error on that call. -/
def RandomIface : Type := Nat → Nat → Option Nat

/-- A provider respects its contract when every value it returns is
strictly below the requested bound (`Get` returns a number in `[0, max)`). -/
def ValidR (r : RandomIface) : Prop := ∀ i b v, r i b = some v → v < b

/-- Go struct `charSet`: a set of characters and the minimum number of
characters from this set that must be in a password. -/
structure charSet where
  set : List Char
  min : Nat
deriving DecidableEq, Repr

/-- Go struct `generator`: the registered character sets, `min` (sum of the
per-set minimums, the minimum length of a password) and `num` (total pool
size, the max length contribution).  The `random` field of the Go struct is
modelled by passing the oracle `r : Random` to each operation explicitly. -/
structure generator where
  charsets : List charSet
  min : Nat
  num : Nat
deriving DecidableEq, Repr

/-- Configuration directives accepted by `NewGenerator`.  `WithRandom` only
replaces the provider, which is modelled outside the struct, so it leaves
the embedded configuration unchanged. -/
inductive Options where
  | WithCharacters : List Char → Nat → Options
  | WithRandom : Options
deriving DecidableEq, Repr

/-- Effect of one directive on the generator under construction
(`WithCharacters` appends the set and accumulates `min` and `num`). -/
def applyOption (g : generator) : Options → generator
  | Options.WithCharacters s m =>
      { charsets := g.charsets ++ [⟨s, m⟩], min := g.min + m, num := g.num + s.length }
  | Options.WithRandom => g

/-- Go `NewGenerator`: apply the options in order to the zero generator and
fail with `NoCharactersErr` when `g.num == 0`. -/
def NewGenerator (opts : List Options) : Except GenError generator :=
  let g := opts.foldl applyOption { charsets := [], min := 0, num := 0 }
  if g.num = 0 then Except.error GenError.noChars else Except.ok g

/-- Sum of the per-set minimums of a list of character sets. -/
def sumMins (cs : List charSet) : Nat := (cs.map charSet.min).sum

/-- Sum of the set sizes of a list of character sets (the pool size). -/
def sumLens (cs : List charSet) : Nat := (cs.map fun c => c.set.length).sum

/-- Total pool size declared by a list of directives. -/
def poolSize (opts : List Options) : Nat :=
  (opts.map fun o => match o with
    | Options.WithCharacters s _ => s.length
    | Options.WithRandom => 0).sum

/-- Internal consistency of a generator: its cached `min` and `num` fields
agree with the registered character sets.  `NewGenerator` establishes this. -/
def WF (g : generator) : Prop :=
  g.min = sumMins g.charsets ∧ g.num = sumLens g.charsets

instance (g : generator) : Decidable (WF g) := by
  unfold WF; infer_instance

/-- Go free function `getRandomChars(r, from, n)`: draw `n` characters
uniformly, with repetition, from `from`.  Each draw is one provider call
with bound `len(from)`; `from[k]` with `k` out of range panics (`Res.oob`). -/
def getRandomChars (r : RandomIface) (l : List Char) : Nat → Nat → Res (List Char) × Nat × List Nat
  | 0, idx => (Res.ok [], idx, [])
  | Nat.succ n, idx =>
    match r idx l.length with
    | none => (Res.err GenError.providerErr, idx + 1, [l.length])
    | some k =>
      match l.get? k with
      | none => (Res.oob, idx + 1, [l.length])
      | some c =>
        match getRandomChars r l n (idx + 1) with
        | (Res.ok rest, idx2, tr) => (Res.ok (c :: rest), idx2, l.length :: tr)
        | (res, idx2, tr) => (res, idx2, l.length :: tr)

/-- First loop of `generator.getRandomChars`: for each registered set in
order, draw that set's minimum number of characters from it. -/
def minChars (r : RandomIface) : List charSet → Nat → Res (List Char) × Nat × List Nat
  | [], idx => (Res.ok [], idx, [])
  | c :: rest, idx =>
    match getRandomChars r c.set c.min idx with
    | (Res.ok cs, idx1, tr1) =>
      match minChars r rest idx1 with
      | (Res.ok cs2, idx2, tr2) => (Res.ok (cs ++ cs2), idx2, tr1 ++ tr2)
      | (res, idx2, tr2) => (res, idx2, tr1 ++ tr2)
    | (res, idx1, tr1) => (res, idx1, tr1)

/-- Inner loop of the fill phase of `generator.getRandomChars`: subtract
each set's size from `k` until `k` falls inside a set, then take that
character.  When `k` is at least the total pool size the Go loop simply
ends and nothing is appended (`none`). -/
def pickFromPool : List charSet → Nat → Option Char
  | [], _ => none
  | c :: rest, k =>
    if k < c.set.length then c.set.get? k else pickFromPool rest (k - c.set.length)

/-- Second loop of `generator.getRandomChars`: draw `m` indices with bound
`g.num` and map each through the virtual concatenated pool. -/
def fillChars (g : generator) (r : RandomIface) : Nat → Nat → Res (List Char) × Nat × List Nat
  | 0, idx => (Res.ok [], idx, [])
  | Nat.succ n, idx =>
    match r idx g.num with
    | none => (Res.err GenError.providerErr, idx + 1, [g.num])
    | some k =>
      match fillChars g r n (idx + 1) with
      | (Res.ok rest, idx2, tr) =>
        (Res.ok (match pickFromPool g.charsets k with
          | some c => c :: rest
          | none => rest), idx2, g.num :: tr)
      | (res, idx2, tr) => (res, idx2, g.num :: tr)

/-- Go method `generator.getRandomChars(n)`: the minimum-satisfaction phase
followed by the uniform-fill phase.  The Go fill-loop bound is the `uint`
difference `n - g.min`; `Generate` only calls this with `n ≥ g.min`
(guaranteed by `getRandomLength`), where it coincides with `Nat`
subtraction as used here. -/
def generator.getRandomChars (g : generator) (r : RandomIface) (n idx : Nat) :
    Res (List Char) × Nat × List Nat :=
  match minChars r g.charsets idx with
  | (Res.ok cs, idx1, tr1) =>
    match fillChars g r (n - g.min) idx1 with
    | (Res.ok cs2, idx2, tr2) => (Res.ok (cs ++ cs2), idx2, tr1 ++ tr2)
    | (res, idx2, tr2) => (res, idx2, tr1 ++ tr2)
  | (res, idx1, tr1) => (res, idx1, tr1)

/-- Reassignment `if min < g.min { min = g.min }` of Go `getRandomLength`:
the effective lower bound of the password length. -/
def effMin (gmin mi : Nat) : Nat := if mi < gmin then gmin else mi

/-- Go method `generator.getRandomLength(min, max)`: reject invalid bounds,
clamp `min` up to `g.min` (the `effMin` reassignment), then one provider
draw with bound `max - min + 1` and return `draw + min`.  For `uint`
arguments the subtraction never underflows here (the guard ensures
`max ≥ min` after the clamp), so `Nat` arithmetic is faithful. -/
def generator.getRandomLength (g : generator) (r : RandomIface) (idx mi ma : Nat) :
    Res Nat × Nat × List Nat :=
  if ma < mi ∨ ma < g.min then (Res.err GenError.invalidLength, idx, [])
  else
    match r idx (ma - effMin g.min mi + 1) with
    | none => (Res.err GenError.providerErr, idx + 1, [ma - effMin g.min mi + 1])
    | some v => (Res.ok (v + effMin g.min mi), idx + 1, [ma - effMin g.min mi + 1])

/-- Simultaneous Go swap `chars[i], chars[j] = chars[j], chars[i]`;
`none` when either index is out of range (a Go panic). -/
def swapAt (l : List Char) (i j : Nat) : Option (List Char) :=
  match l.get? i, l.get? j with
  | some a, some b => some ((l.set i b).set j a)
  | _, _ => none

/-- Largest Go `uint` value (64-bit). -/
def UINT_MAX : Nat := 2 ^ 64 - 1

/-- Loop of Go `shuffle`: `rem` iterations remain, `i` is the current
index, `n` the length of the slice.  Each iteration draws `k` with bound
`n - i` and swaps positions `i` and `i + k`. -/
def shuffleLoop (r : RandomIface) (n : Nat) : Nat → Nat → List Char → Nat → Res (List Char) × Nat × List Nat
  | 0, _, chars, idx => (Res.ok chars, idx, [])
  | Nat.succ rem, i, chars, idx =>
    match r idx (n - i) with
    | none => (Res.err GenError.providerErr, idx + 1, [n - i])
    | some k =>
      match swapAt chars i (i + k) with
      | none => (Res.oob, idx + 1, [n - i])
      | some chars2 =>
        match shuffleLoop r n rem (i + 1) chars2 (idx + 1) with
        | (res, idx2, tr) => (res, idx2, (n - i) :: tr)

/-- Go `shuffle(r, chars)`: `for i := uint(0); i < n-1; i++ { ... }`.
The loop bound `n - 1` is computed in `uint` arithmetic, so for `n = 0` it
underflows to `UINT_MAX` and the loop body runs (this is the reachable
wrap-around the embedding models explicitly). -/
def shuffle (r : RandomIface) (chars : List Char) (idx : Nat) : Res (List Char) × Nat × List Nat :=
  let n := chars.length
  shuffleLoop r n (if n = 0 then UINT_MAX else n - 1) 0 chars idx

/-- Go method `generator.Generate(min, max)`: pick a length, pick the
characters, shuffle them; any error aborts immediately and returns no
password. -/
def generator.Generate (g : generator) (r : RandomIface) (mi ma idx : Nat) :
    Res (List Char) × Nat × List Nat :=
  match g.getRandomLength r idx mi ma with
  | (Res.ok len, idx1, tr1) =>
    match g.getRandomChars r len idx1 with
    | (Res.ok cs, idx2, tr2) =>
      match shuffle r cs idx2 with
      | (res, idx3, tr3) => (res, idx3, tr1 ++ tr2 ++ tr3)
    | (res, idx2, tr2) => (res, idx2, tr1 ++ tr2)
  | (Res.err e, idx1, tr1) => (Res.err e, idx1, tr1)
  | (Res.oob, idx1, tr1) => (Res.oob, idx1, tr1)

/-- Provider that returns `call index mod bound` for positive bounds and an
error for bound `0`; it satisfies the provider contract. -/
def rmod : RandomIface := fun i b => if b = 0 then none else some (i % b)

/-- Provider that always returns `0` for positive bounds and an error for
bound `0`. -/
def rpos : RandomIface := fun _ b => if b = 0 then none else some 0

/-- Provider that fails on every call. -/
def rfail : RandomIface := fun _ _ => none

theorem validR_rmod : ValidR rmod := by
  intro i b v h
  unfold rmod at h
  by_cases hb : b = 0
  · simp [hb] at h
  · simp [hb] at h
    have := Nat.mod_lt i (Nat.pos_of_ne_zero hb)
    omega

theorem validR_rpos : ValidR rpos := by
  intro i b v h
  unfold rpos at h
  by_cases hb : b = 0
  · simp [hb] at h
  · simp [hb] at h
    omega

/-! ### Basic lemmas about the embedded operations -/

/-- The last provider call in trace `tr` (whose first call has index `idx`)
returned an error. -/
def ErrLast (r : RandomIface) (idx : Nat) (tr : List Nat) : Prop :=
  ∃ t b, tr = t ++ [b] ∧ r (idx + t.length) b = none

theorem ErrLast.prepend {r : RandomIface} {idx : Nat} {t1 tr : List Nat}
    (h : ErrLast r (idx + t1.length) tr) : ErrLast r idx (t1 ++ tr) := by
  obtain ⟨t, b, rfl, hb⟩ := h
  exact ⟨t1 ++ t, b, by simp, by simpa [Nat.add_assoc] using hb⟩

theorem getRandomChars_ok {r : RandomIface} {l : List Char} {n idx : Nat}
    {out : List Char} {idx2 : Nat} {tr : List Nat}
    (h : getRandomChars r l n idx = (Res.ok out, idx2, tr)) :
    out.length = n ∧ (∀ c ∈ out, c ∈ l) ∧ idx2 = idx + n ∧
      tr = List.replicate n l.length := by
  induction n generalizing idx out idx2 tr with
  | zero =>
    simp only [getRandomChars, Prod.mk.injEq, Res.ok.injEq] at h
    obtain ⟨rfl, rfl, rfl⟩ := h
    simp
  | succ n ih =>
    rw [getRandomChars] at h
    split at h
    · simp at h
    · rename_i k hr
      split at h
      · simp at h
      · rename_i c hg
        split at h
        · rename_i rest i0 t0 hrec
          simp only [Prod.mk.injEq, Res.ok.injEq] at h
          obtain ⟨h1, h2, h3⟩ := h
          obtain ⟨ihl, ihm, ihi, iht⟩ := ih hrec
          subst h2 h3
          refine ⟨by simp [← h1, ihl], ?_, by omega, by simp [← h1, iht, List.replicate_succ]⟩
          intro x hx
          rw [← h1] at hx
          rcases List.mem_cons.mp hx with rfl | hx2
          · exact List.get?_mem hg
          · exact ihm x hx2
        · rename_i res0 i0 t0 hne hrec
          simp only [Prod.mk.injEq] at h
          obtain ⟨h1, h2, h3⟩ := h
          exact absurd h1 (fun hh => hne out hh)

/-- A provider that never fails on a positive bound. -/
def PosOk (r : RandomIface) : Prop := ∀ i b, 0 < b → r i b ≠ none

theorem getRandomChars_idx {r : RandomIface} {l : List Char} {n idx : Nat}
    {res : Res (List Char)} {idx2 : Nat} {tr : List Nat}
    (h : getRandomChars r l n idx = (res, idx2, tr)) : idx2 = idx + tr.length := by
  induction n generalizing idx res idx2 tr with
  | zero =>
    simp only [getRandomChars, Prod.mk.injEq] at h
    obtain ⟨-, rfl, rfl⟩ := h
    simp
  | succ n ih =>
    rw [getRandomChars] at h
    split at h
    · simp only [Prod.mk.injEq] at h
      obtain ⟨-, rfl, rfl⟩ := h
      simp
    · rename_i k hr
      split at h
      · simp only [Prod.mk.injEq] at h
        obtain ⟨-, rfl, rfl⟩ := h
        simp
      · rename_i c hg
        split at h
        · rename_i rest i0 t0 hrec
          simp only [Prod.mk.injEq] at h
          obtain ⟨-, rfl, rfl⟩ := h
          have := ih hrec
          simp [this]
          omega
        · rename_i res0 i0 t0 hne hrec
          simp only [Prod.mk.injEq] at h
          obtain ⟨-, rfl, rfl⟩ := h
          have := ih hrec
          simp [this]
          omega

theorem getRandomChars_err {r : RandomIface} {l : List Char} {n idx : Nat}
    {e : GenError} {idx2 : Nat} {tr : List Nat}
    (h : getRandomChars r l n idx = (Res.err e, idx2, tr)) :
    e = GenError.providerErr ∧ ErrLast r idx tr := by
  induction n generalizing idx idx2 tr with
  | zero => simp [getRandomChars] at h
  | succ n ih =>
    rw [getRandomChars] at h
    split at h
    · rename_i hr
      simp only [Prod.mk.injEq, Res.err.injEq] at h
      obtain ⟨rfl, -, rfl⟩ := h
      exact ⟨rfl, [], l.length, rfl, by simpa using hr⟩
    · rename_i k hr
      split at h
      · simp at h
      · rename_i c hg
        split at h
        · simp at h
        · rename_i res0 i0 t0 hne hrec
          simp only [Prod.mk.injEq] at h
          obtain ⟨h1, -, rfl⟩ := h
          subst h1
          obtain ⟨he, hel⟩ := ih hrec
          refine ⟨he, ?_⟩
          have : ([l.length] : List Nat).length = 1 := rfl
          simpa using @ErrLast.prepend r idx [l.length] t0 (by simpa using hel)

theorem getRandomChars_posOk {r : RandomIface} {l : List Char}
    (hv : ValidR r) (hp : PosOk r) (hl : l ≠ []) (n idx : Nat) :
    ∃ out, getRandomChars r l n idx
      = (Res.ok out, idx + n, List.replicate n l.length) := by
  induction n generalizing idx with
  | zero => exact ⟨[], by simp [getRandomChars]⟩
  | succ n ih =>
    have hlen : 0 < l.length := List.length_pos.mpr hl
    cases hr : r idx l.length with
    | none => exact absurd hr (hp idx l.length hlen)
    | some k =>
      have hk : k < l.length := hv idx l.length k hr
      have hg : l.get? k = some (l.get ⟨k, hk⟩) := List.get?_eq_get hk
      obtain ⟨out, hout⟩ := ih (idx + 1)
      refine ⟨l.get ⟨k, hk⟩ :: out, ?_⟩
      rw [getRandomChars, hr]
      simp only [hg, hout]
      simp [List.replicate_succ]
      omega

theorem minChars_head_ok {r : RandomIface} {c : charSet} {rest : List charSet}
    {idx idx1 : Nat} {cs1 : List Char} {tr1 : List Nat}
    (hg : getRandomChars r c.set c.min idx = (Res.ok cs1, idx1, tr1)) :
    (minChars r (c :: rest) idx).2.2 = tr1 ++ (minChars r rest idx1).2.2 := by
  rw [minChars, hg]
  rcases hrec : minChars r rest idx1 with ⟨res0, i0, t0⟩
  cases res0 <;> simp [hrec]

theorem minChars_ok {r : RandomIface} {cs : List charSet} {idx : Nat}
    {out : List Char} {idx2 : Nat} {tr : List Nat}
    (h : minChars r cs idx = (Res.ok out, idx2, tr)) :
    out.length = sumMins cs ∧
      ∀ c ∈ cs, c.min ≤ out.countP (fun x => decide (x ∈ c.set)) := by
  induction cs generalizing idx out idx2 tr with
  | nil =>
    simp only [minChars, Prod.mk.injEq, Res.ok.injEq] at h
    obtain ⟨rfl, -, -⟩ := h
    simp [sumMins]
  | cons c rest ih =>
    rw [minChars] at h
    split at h
    · rename_i cs1 i1 t1 hg
      split at h
      · rename_i cs2 i2 t2 hrec
        simp only [Prod.mk.injEq, Res.ok.injEq] at h
        obtain ⟨h1, -, -⟩ := h
        obtain ⟨hl1, hm1, -, -⟩ := getRandomChars_ok hg
        obtain ⟨ihl, ihc⟩ := ih hrec
        subst h1
        constructor
        · simp [sumMins, hl1, ihl, List.map_cons]
        · intro cx hcx
          rcases List.mem_cons.mp hcx with rfl | hcx2
          · have hall : List.countP (fun x => decide (x ∈ cx.set)) cs1 = cs1.length :=
              List.countP_eq_length.mpr (fun a ha => by simpa using hm1 a ha)
            rw [List.countP_append]
            omega
          · have := ihc cx hcx2
            rw [List.countP_append]
            omega
      · rename_i res0 i0 t0 hne hrec
        simp only [Prod.mk.injEq] at h
        exact absurd h.1 (fun hh => hne _ hh)
    · rename_i res0 i0 t0 hne hg
      simp only [Prod.mk.injEq] at h
      exact absurd h.1 (fun hh => hne _ hh)

theorem minChars_idx {r : RandomIface} {cs : List charSet} {idx : Nat}
    {res : Res (List Char)} {idx2 : Nat} {tr : List Nat}
    (h : minChars r cs idx = (res, idx2, tr)) : idx2 = idx + tr.length := by
  induction cs generalizing idx res idx2 tr with
  | nil =>
    simp only [minChars, Prod.mk.injEq] at h
    obtain ⟨-, rfl, rfl⟩ := h
    simp
  | cons c rest ih =>
    rw [minChars] at h
    split at h
    · rename_i cs1 i1 t1 hg
      have hi1 := getRandomChars_idx hg
      split at h
      · rename_i cs2 i2 t2 hrec
        have hi2 := ih hrec
        simp only [Prod.mk.injEq] at h
        obtain ⟨-, rfl, rfl⟩ := h
        simp [hi1, hi2]
        omega
      · rename_i res0 i0 t0 hne hrec
        have hi2 := ih hrec
        simp only [Prod.mk.injEq] at h
        obtain ⟨-, rfl, rfl⟩ := h
        simp [hi1, hi2]
        omega
    · rename_i res0 i0 t0 hne hg
      have hi1 := getRandomChars_idx hg
      simp only [Prod.mk.injEq] at h
      obtain ⟨-, rfl, rfl⟩ := h
      exact hi1

theorem minChars_err {r : RandomIface} {cs : List charSet} {idx : Nat}
    {e : GenError} {idx2 : Nat} {tr : List Nat}
    (h : minChars r cs idx = (Res.err e, idx2, tr)) :
    e = GenError.providerErr ∧ ErrLast r idx tr := by
  induction cs generalizing idx idx2 tr with
  | nil => simp [minChars] at h
  | cons c rest ih =>
    rw [minChars] at h
    split at h
    · rename_i cs1 i1 t1 hg
      have hi1 := getRandomChars_idx hg
      split at h
      · rename_i cs2 i2 t2 hrec
        simp at h
      · rename_i res0 i0 t0 hne hrec
        simp only [Prod.mk.injEq] at h
        obtain ⟨h1, -, rfl⟩ := h
        cases res0 with
        | ok o => exact absurd rfl (fun hh => hne o (h1 ▸ hh))
        | err e0 =>
          have h1e : e0 = e := by simpa using h1
          subst h1e
          obtain ⟨he, hel⟩ := ih hrec
          exact ⟨he, ErrLast.prepend (hi1 ▸ hel)⟩
        | oob => simp at h1
    · rename_i res0 i0 t0 hne hg
      simp only [Prod.mk.injEq] at h
      obtain ⟨h1, -, rfl⟩ := h
      cases res0 with
      | ok o => exact absurd rfl (fun hh => hne o (h1 ▸ hh))
      | err e0 =>
        have h1e : e0 = e := by simpa using h1
        subst h1e
        exact getRandomChars_err (h1 ▸ hg)
      | oob => simp at h1

theorem pickFromPool_eq (cs : List charSet) (k : Nat) :
    pickFromPool cs k = ((cs.map charSet.set).flatten).get? k := by
  induction cs generalizing k with
  | nil => simp [pickFromPool]
  | cons c rest ih =>
    rw [pickFromPool]
    by_cases hk : k < c.set.length
    · rw [if_pos hk]
      simp only [List.map_cons, List.flatten_cons]
      rw [List.get?_append hk]
    · rw [if_neg hk]
      simp only [List.map_cons, List.flatten_cons]
      rw [List.get?_append_right (by omega)]
      exact ih (k - c.set.length)

theorem flatten_length_sumLens (cs : List charSet) :
    ((cs.map charSet.set).flatten).length = sumLens cs := by
  rw [List.length_flatten, List.map_map]
  rfl

theorem fillChars_idx {g : generator} {r : RandomIface} {m idx : Nat}
    {res : Res (List Char)} {idx2 : Nat} {tr : List Nat}
    (h : fillChars g r m idx = (res, idx2, tr)) : idx2 = idx + tr.length := by
  induction m generalizing idx res idx2 tr with
  | zero =>
    simp only [fillChars, Prod.mk.injEq] at h
    obtain ⟨-, rfl, rfl⟩ := h
    simp
  | succ m ih =>
    rw [fillChars] at h
    split at h
    · simp only [Prod.mk.injEq] at h
      obtain ⟨-, rfl, rfl⟩ := h
      simp
    · rename_i k hr
      split at h
      · rename_i rest i0 t0 hrec
        have := ih hrec
        simp only [Prod.mk.injEq] at h
        obtain ⟨-, rfl, rfl⟩ := h
        simp [this]
        omega
      · rename_i res0 i0 t0 hne hrec
        have := ih hrec
        simp only [Prod.mk.injEq] at h
        obtain ⟨-, rfl, rfl⟩ := h
        simp [this]
        omega

theorem fillChars_err {g : generator} {r : RandomIface} {m idx : Nat}
    {e : GenError} {idx2 : Nat} {tr : List Nat}
    (h : fillChars g r m idx = (Res.err e, idx2, tr)) :
    e = GenError.providerErr ∧ ErrLast r idx tr := by
  induction m generalizing idx idx2 tr with
  | zero => simp [fillChars] at h
  | succ m ih =>
    rw [fillChars] at h
    split at h
    · rename_i hr
      simp only [Prod.mk.injEq, Res.err.injEq] at h
      obtain ⟨rfl, -, rfl⟩ := h
      exact ⟨rfl, [], g.num, rfl, by simpa using hr⟩
    · rename_i k hr
      split at h
      · simp at h
      · rename_i res0 i0 t0 hne hrec
        simp only [Prod.mk.injEq] at h
        obtain ⟨h1, -, rfl⟩ := h
        cases res0 with
        | ok o => exact absurd rfl (fun hh => hne o (h1 ▸ hh))
        | err e0 =>
          have h1e : e0 = e := by simpa using h1
          subst h1e
          obtain ⟨he, hel⟩ := ih hrec
          refine ⟨he, ?_⟩
          simpa using @ErrLast.prepend r idx [g.num] t0 (by simpa using hel)
        | oob => simp at h1

theorem fillChars_ok {g : generator} {r : RandomIface}
    (hv : ValidR r) (hnum : g.num = sumLens g.charsets) {m idx : Nat}
    {out : List Char} {idx2 : Nat} {tr : List Nat}
    (h : fillChars g r m idx = (Res.ok out, idx2, tr)) :
    out.length = m ∧ tr = List.replicate m g.num ∧
      ∀ j, j < m → ∃ k, r (idx + j) g.num = some k ∧
        out.get? j = ((g.charsets.map charSet.set).flatten).get? k := by
  induction m generalizing idx out idx2 tr with
  | zero =>
    simp only [fillChars, Prod.mk.injEq, Res.ok.injEq] at h
    obtain ⟨rfl, -, rfl⟩ := h
    exact ⟨rfl, rfl, fun j hj => absurd hj (by omega)⟩
  | succ m ih =>
    rw [fillChars] at h
    split at h
    · simp at h
    · rename_i k hr
      split at h
      · rename_i rest i0 t0 hrec
        have hk : k < g.num := hv idx g.num k hr
        have hkf : k < ((g.charsets.map charSet.set).flatten).length := by
          rw [flatten_length_sumLens]
          omega
        have hpick : pickFromPool g.charsets k
            = some (((g.charsets.map charSet.set).flatten).get ⟨k, hkf⟩) := by
          rw [pickFromPool_eq]
          exact List.get?_eq_get hkf
        rw [hpick] at h
        simp only [Prod.mk.injEq, Res.ok.injEq] at h
        obtain ⟨h1, -, rfl⟩ := h
        obtain ⟨ihl, iht, ihj⟩ := ih hrec
        refine ⟨by simp [← h1, ihl], by simp [← h1, iht, List.replicate_succ], ?_⟩
        intro j hj
        cases j with
        | zero =>
          refine ⟨k, by simpa using hr, ?_⟩
          rw [← h1]
          simp [List.get?_eq_get hkf]
        | succ j =>
          obtain ⟨k2, hk2, hg2⟩ := ihj j (by omega)
          refine ⟨k2, ?_, ?_⟩
          · have : idx + 1 + j = idx + (j + 1) := by omega
            rwa [this] at hk2
          · rw [← h1]
            simpa using hg2
      · rename_i res0 i0 t0 hne hrec
        simp only [Prod.mk.injEq] at h
        exact absurd h.1 (fun hh => hne _ hh)

theorem get_cons_set_perm (xs : List Char) (k : Nat) (hk : k < xs.length) (x : Char) :
    (xs.get ⟨k, hk⟩ :: xs.set k x).Perm (x :: xs) := by
  induction xs generalizing k with
  | nil => simp at hk
  | cons y ys ih =>
    cases k with
    | zero => simpa using List.Perm.swap x y ys
    | succ k =>
      have hk2 : k < ys.length := by simpa using hk
      have step1 : (ys.get ⟨k, hk2⟩ :: y :: ys.set k x).Perm
          (y :: ys.get ⟨k, hk2⟩ :: ys.set k x) := List.Perm.swap y _ _
      have step2 : (y :: ys.get ⟨k, hk2⟩ :: ys.set k x).Perm (y :: x :: ys) :=
        List.Perm.cons y (ih k hk2)
      have step3 : (y :: x :: ys).Perm (x :: y :: ys) := List.Perm.swap x y ys
      simpa using (step1.trans step2).trans step3

theorem swapAt_perm {l : List Char} {i j : Nat} {l2 : List Char}
    (h : swapAt l i j = some l2) : l2.Perm l := by
  rw [swapAt] at h
  cases hgi : l.get? i with
  | none => rw [hgi] at h; simp at h
  | some a =>
    cases hgj : l.get? j with
    | none => rw [hgi, hgj] at h; simp at h
    | some b =>
      rw [hgi, hgj] at h
      simp only [Option.some.injEq] at h
      obtain ⟨hi, hia⟩ := List.get?_eq_some.mp hgi
      obtain ⟨hj, hjb⟩ := List.get?_eq_some.mp hgj
      by_cases hij : i = j
      · subst hij
        rw [List.set_set] at h
        have hperm := get_cons_set_perm l i hi a
        rw [hia] at hperm
        exact h ▸ (List.Perm.cons_inv hperm)
      · have hj1 : j < (l.set i b).length := by simpa using hj
        have hperm1 := get_cons_set_perm (l.set i b) j hj1 a
        have hgj2 : (l.set i b).get? j = some b := by
          rw [List.get?_set_ne _ _ hij]
          exact hgj
        have hgetj : (l.set i b).get ⟨j, hj1⟩ = b := by
          have := List.get?_eq_get hj1
          rw [hgj2] at this
          exact (Option.some.injEq .. ▸ this.symm :)
        rw [hgetj] at hperm1
        have hperm2 := get_cons_set_perm l i hi b
        rw [hia] at hperm2
        have : (b :: l2).Perm (b :: l) := by
          rw [← h]
          exact hperm1.trans hperm2
        exact List.Perm.cons_inv this

theorem shuffleLoop_ok {r : RandomIface} {n rem i : Nat} {chars : List Char}
    {idx : Nat} {out : List Char} {idx2 : Nat} {tr : List Nat}
    (h : shuffleLoop r n rem i chars idx = (Res.ok out, idx2, tr)) :
    out.Perm chars ∧ tr = (List.range rem).map (fun j => n - (i + j)) ∧
      idx2 = idx + rem := by
  induction rem generalizing i chars idx out idx2 tr with
  | zero =>
    simp only [shuffleLoop, Prod.mk.injEq, Res.ok.injEq] at h
    obtain ⟨rfl, rfl, rfl⟩ := h
    exact ⟨List.Perm.refl _, by simp, by simp⟩
  | succ rem ih =>
    rw [shuffleLoop] at h
    split at h
    · simp at h
    · rename_i k hr
      split at h
      · simp at h
      · rename_i chars2 hsw
        rcases hrec : shuffleLoop r n rem (i + 1) chars2 (idx + 1) with ⟨res0, i0, t0⟩
        rw [hrec] at h
        simp only [Prod.mk.injEq] at h
        obtain ⟨h1, rfl, rfl⟩ := h
        cases res0 with
        | ok out0 =>
          have h1o : out0 = out := by simpa using h1
          subst h1o
          obtain ⟨hperm, htr, hidx⟩ := ih hrec
          refine ⟨hperm.trans (swapAt_perm hsw), ?_, by omega⟩
          rw [htr, List.range_succ_eq_map, List.map_cons, List.map_map]
          refine congrArg₂ List.cons (by simp) (List.map_congr_left ?_)
          intro a ha
          simp only [Function.comp_apply]
          omega
        | err e0 => simp at h1
        | oob => simp at h1

theorem shuffleLoop_idx {r : RandomIface} {n rem i : Nat} {chars : List Char}
    {idx : Nat} {res : Res (List Char)} {idx2 : Nat} {tr : List Nat}
    (h : shuffleLoop r n rem i chars idx = (res, idx2, tr)) :
    idx2 = idx + tr.length := by
  induction rem generalizing i chars idx res idx2 tr with
  | zero =>
    simp only [shuffleLoop, Prod.mk.injEq] at h
    obtain ⟨-, rfl, rfl⟩ := h
    simp
  | succ rem ih =>
    rw [shuffleLoop] at h
    split at h
    · simp only [Prod.mk.injEq] at h
      obtain ⟨-, rfl, rfl⟩ := h
      simp
    · rename_i k hr
      split at h
      · simp only [Prod.mk.injEq] at h
        obtain ⟨-, rfl, rfl⟩ := h
        simp
      · rename_i chars2 hsw
        rcases hrec : shuffleLoop r n rem (i + 1) chars2 (idx + 1) with ⟨res0, i0, t0⟩
        rw [hrec] at h
        simp only [Prod.mk.injEq] at h
        obtain ⟨-, rfl, rfl⟩ := h
        have := ih hrec
        simp [this]
        omega

theorem shuffleLoop_err {r : RandomIface} {n rem i : Nat} {chars : List Char}
    {idx : Nat} {e : GenError} {idx2 : Nat} {tr : List Nat}
    (h : shuffleLoop r n rem i chars idx = (Res.err e, idx2, tr)) :
    e = GenError.providerErr ∧ ErrLast r idx tr := by
  induction rem generalizing i chars idx idx2 tr with
  | zero => simp [shuffleLoop] at h
  | succ rem ih =>
    rw [shuffleLoop] at h
    split at h
    · rename_i hr
      simp only [Prod.mk.injEq, Res.err.injEq] at h
      obtain ⟨rfl, -, rfl⟩ := h
      exact ⟨rfl, [], n - i, rfl, by simpa using hr⟩
    · rename_i k hr
      split at h
      · simp at h
      · rename_i chars2 hsw
        rcases hrec : shuffleLoop r n rem (i + 1) chars2 (idx + 1) with ⟨res0, i0, t0⟩
        rw [hrec] at h
        simp only [Prod.mk.injEq] at h
        obtain ⟨h1, -, rfl⟩ := h
        cases res0 with
        | ok o => simp at h1
        | err e0 =>
          have h1e : e0 = e := by simpa using h1
          subst h1e
          obtain ⟨he, hel⟩ := ih hrec
          refine ⟨he, ?_⟩
          simpa using @ErrLast.prepend r idx [n - i] t0 (by simpa using hel)
        | oob => simp at h1

theorem shuffleLoop_nil_not_ok {r : RandomIface} {rem i idx : Nat}
    (hrem : 0 < rem) {out : List Char} {idx2 : Nat} {tr : List Nat} :
    shuffleLoop r 0 rem i [] idx ≠ (Res.ok out, idx2, tr) := by
  intro h
  cases rem with
  | zero => omega
  | succ m =>
    rw [shuffleLoop] at h
    cases hro : r idx (0 - i) with
    | none => rw [hro] at h; simp at h
    | some k => rw [hro] at h; simp [swapAt] at h

theorem shuffle_ok {r : RandomIface} {chars : List Char} {idx : Nat}
    {out : List Char} {idx2 : Nat} {tr : List Nat}
    (h : shuffle r chars idx = (Res.ok out, idx2, tr)) :
    out.Perm chars ∧
      tr = (List.range (chars.length - 1)).map (fun j => chars.length - j) ∧
      idx2 = idx + (chars.length - 1) := by
  by_cases hn : chars.length = 0
  · exfalso
    have hce : chars = [] := List.length_eq_zero.mp hn
    subst hce
    simp only [shuffle, List.length_nil, if_pos rfl] at h
    exact shuffleLoop_nil_not_ok (by norm_num [UINT_MAX]) h
  · simp only [shuffle] at h
    rw [if_neg hn] at h
    obtain ⟨hperm, htr, hidx⟩ := shuffleLoop_ok h
    exact ⟨hperm, by simpa using htr, hidx⟩

theorem effMin_eq (gm mi : Nat) : effMin gm mi = max mi gm := by
  rw [effMin]
  split <;> omega

theorem getRandomLength_ok {g : generator} {r : RandomIface} {idx mi ma : Nat}
    {L idx2 : Nat} {tr : List Nat}
    (h : g.getRandomLength r idx mi ma = (Res.ok L, idx2, tr)) :
    ¬(ma < mi ∨ ma < g.min) ∧
      ∃ d, r idx (ma - max mi g.min + 1) = some d ∧
        L = max mi g.min + d ∧ idx2 = idx + 1 ∧
        tr = [ma - max mi g.min + 1] := by
  rw [generator.getRandomLength] at h
  split at h
  · simp at h
  · rename_i hcond
    rw [effMin_eq] at h
    cases hr : r idx (ma - max mi g.min + 1) with
    | none => rw [hr] at h; simp at h
    | some d =>
      rw [hr] at h
      simp only [Prod.mk.injEq, Res.ok.injEq] at h
      obtain ⟨h1, rfl, rfl⟩ := h
      exact ⟨hcond, d, rfl, by omega, rfl, rfl⟩

theorem getRandomLength_invalid {g : generator} {r : RandomIface} {idx mi ma : Nat}
    (hcond : ma < mi ∨ ma < g.min) :
    g.getRandomLength r idx mi ma = (Res.err GenError.invalidLength, idx, []) := by
  rw [generator.getRandomLength, if_pos hcond]

theorem getRandomLength_err {g : generator} {r : RandomIface} {idx mi ma : Nat}
    {e : GenError} {idx2 : Nat} {tr : List Nat}
    (h : g.getRandomLength r idx mi ma = (Res.err e, idx2, tr)) :
    (e = GenError.invalidLength ∧ (ma < mi ∨ ma < g.min) ∧ tr = [] ∧ idx2 = idx) ∨
      (e = GenError.providerErr ∧ ¬(ma < mi ∨ ma < g.min) ∧ ErrLast r idx tr ∧
        idx2 = idx + tr.length) := by
  rw [generator.getRandomLength] at h
  split at h
  · rename_i hcond
    simp only [Prod.mk.injEq, Res.err.injEq] at h
    obtain ⟨rfl, rfl, rfl⟩ := h
    exact Or.inl ⟨rfl, hcond, rfl, rfl⟩
  · rename_i hcond
    rw [effMin_eq] at h
    cases hr : r idx (ma - max mi g.min + 1) with
    | none =>
      rw [hr] at h
      simp only [Prod.mk.injEq, Res.err.injEq] at h
      obtain ⟨rfl, rfl, rfl⟩ := h
      exact Or.inr ⟨rfl, hcond, ⟨[], _, rfl, by simpa using hr⟩, by simp⟩
    | some d => rw [hr] at h; simp at h

theorem getRandomLength_idx {g : generator} {r : RandomIface} {idx mi ma : Nat}
    {res : Res Nat} {idx2 : Nat} {tr : List Nat}
    (h : g.getRandomLength r idx mi ma = (res, idx2, tr)) :
    idx2 = idx + tr.length := by
  rw [generator.getRandomLength] at h
  split at h
  · simp only [Prod.mk.injEq] at h
    obtain ⟨-, rfl, rfl⟩ := h
    simp
  · rw [effMin_eq] at h
    cases hr : r idx (ma - max mi g.min + 1) with
    | none =>
      rw [hr] at h
      simp only [Prod.mk.injEq] at h
      obtain ⟨-, rfl, rfl⟩ := h
      simp
    | some d =>
      rw [hr] at h
      simp only [Prod.mk.injEq] at h
      obtain ⟨-, rfl, rfl⟩ := h
      simp

theorem ggrc_ok_parts {g : generator} {r : RandomIface} {n idx : Nat}
    {out : List Char} {idx2 : Nat} {tr : List Nat}
    (h : g.getRandomChars r n idx = (Res.ok out, idx2, tr)) :
    ∃ cs1 i1 t1 cs2 t2,
      minChars r g.charsets idx = (Res.ok cs1, i1, t1) ∧
      fillChars g r (n - g.min) i1 = (Res.ok cs2, idx2, t2) ∧
      out = cs1 ++ cs2 ∧ tr = t1 ++ t2 := by
  rw [generator.getRandomChars] at h
  split at h
  · rename_i cs1 i1 t1 hmin
    split at h
    · rename_i cs2 i2 t2 hfill
      simp only [Prod.mk.injEq, Res.ok.injEq] at h
      obtain ⟨h1, rfl, rfl⟩ := h
      exact ⟨cs1, i1, t1, cs2, t2, hmin, hfill, h1.symm, rfl⟩
    · rename_i res0 i0 t0 hne hfill
      simp only [Prod.mk.injEq] at h
      exact absurd h.1 (fun hh => hne _ hh)
  · rename_i res0 i0 t0 hne hmin
    simp only [Prod.mk.injEq] at h
    exact absurd h.1 (fun hh => hne _ hh)

theorem ggrc_idx {g : generator} {r : RandomIface} {n idx : Nat}
    {res : Res (List Char)} {idx2 : Nat} {tr : List Nat}
    (h : g.getRandomChars r n idx = (res, idx2, tr)) :
    idx2 = idx + tr.length := by
  rw [generator.getRandomChars] at h
  split at h
  · rename_i cs1 i1 t1 hmin
    have hi1 := minChars_idx hmin
    split at h
    · rename_i cs2 i2 t2 hfill
      have hi2 := fillChars_idx hfill
      simp only [Prod.mk.injEq] at h
      obtain ⟨-, rfl, rfl⟩ := h
      simp [hi1, hi2]
      omega
    · rename_i res0 i0 t0 hne hfill
      have hi2 := fillChars_idx hfill
      simp only [Prod.mk.injEq] at h
      obtain ⟨-, rfl, rfl⟩ := h
      simp [hi1, hi2]
      omega
  · rename_i res0 i0 t0 hne hmin
    have hi1 := minChars_idx hmin
    simp only [Prod.mk.injEq] at h
    obtain ⟨-, rfl, rfl⟩ := h
    exact hi1

theorem ggrc_err {g : generator} {r : RandomIface} {n idx : Nat}
    {e : GenError} {idx2 : Nat} {tr : List Nat}
    (h : g.getRandomChars r n idx = (Res.err e, idx2, tr)) :
    e = GenError.providerErr ∧ ErrLast r idx tr := by
  rw [generator.getRandomChars] at h
  split at h
  · rename_i cs1 i1 t1 hmin
    have hi1 := minChars_idx hmin
    split at h
    · simp at h
    · rename_i res0 i0 t0 hne hfill
      simp only [Prod.mk.injEq] at h
      obtain ⟨h1, -, rfl⟩ := h
      cases res0 with
      | ok o => exact absurd rfl (fun hh => hne o (h1 ▸ hh))
      | err e0 =>
        have h1e : e0 = e := by simpa using h1
        subst h1e
        obtain ⟨he, hel⟩ := fillChars_err hfill
        exact ⟨he, ErrLast.prepend (hi1 ▸ hel)⟩
      | oob => simp at h1
  · rename_i res0 i0 t0 hne hmin
    simp only [Prod.mk.injEq] at h
    obtain ⟨h1, -, rfl⟩ := h
    cases res0 with
    | ok o => exact absurd rfl (fun hh => hne o (h1 ▸ hh))
    | err e0 =>
      have h1e : e0 = e := by simpa using h1
      subst h1e
      exact minChars_err (h1 ▸ hmin)
    | oob => simp at h1

/-- Character sets registered by a list of directives, in order. -/
def optSets (opts : List Options) : List charSet :=
  opts.filterMap fun o => match o with
    | Options.WithCharacters s m => some ⟨s, m⟩
    | Options.WithRandom => none

theorem foldl_applyOption (opts : List Options) (g0 : generator) :
    (opts.foldl applyOption g0).charsets = g0.charsets ++ optSets opts ∧
    (opts.foldl applyOption g0).min = g0.min + sumMins (optSets opts) ∧
    (opts.foldl applyOption g0).num = g0.num + sumLens (optSets opts) := by
  induction opts generalizing g0 with
  | nil => simp [optSets, sumMins, sumLens]
  | cons o rest ih =>
    obtain ⟨h1, h2, h3⟩ := ih (applyOption g0 o)
    cases o with
    | WithCharacters s m =>
      refine ⟨?_, ?_, ?_⟩
      · rw [List.foldl_cons, h1]
        simp [applyOption, optSets, List.filterMap_cons]
      · rw [List.foldl_cons, h2]
        simp [applyOption, optSets, List.filterMap_cons, sumMins]
        omega
      · rw [List.foldl_cons, h3]
        simp [applyOption, optSets, List.filterMap_cons, sumLens]
        omega
    | WithRandom =>
      refine ⟨?_, ?_, ?_⟩
      · rw [List.foldl_cons, h1]
        simp [applyOption, optSets, List.filterMap_cons]
      · rw [List.foldl_cons, h2]
        simp [applyOption, optSets, List.filterMap_cons]
      · rw [List.foldl_cons, h3]
        simp [applyOption, optSets, List.filterMap_cons]

theorem NewGenerator_ok {opts : List Options} {g : generator}
    (h : NewGenerator opts = Except.ok g) :
    g.charsets = optSets opts ∧ WF g ∧ 0 < g.num := by
  rw [NewGenerator] at h
  split at h
  · simp at h
  · rename_i hnum
    simp only [Except.ok.injEq] at h
    subst h
    obtain ⟨h1, h2, h3⟩ := foldl_applyOption opts { charsets := [], min := 0, num := 0 }
    simp only [List.nil_append] at h1
    refine ⟨h1, ⟨?_, ?_⟩, ?_⟩
    · rw [h2, h1]
      simp
    · rw [h3, h1]
      simp
    · omega

theorem sumLens_optSets (opts : List Options) :
    sumLens (optSets opts) = poolSize opts := by
  induction opts with
  | nil => simp [optSets, sumLens, poolSize]
  | cons o rest ih =>
    cases o with
    | WithCharacters s m =>
      simp only [optSets, List.filterMap_cons] at *
      simp only [sumLens, List.map_cons, List.sum_cons, poolSize] at *
      omega
    | WithRandom =>
      simp only [optSets, List.filterMap_cons] at *
      rw [ih]
      simp [poolSize]

theorem getRandomChars_zeroSet {r : RandomIface} (hv : ValidR r) {n idx : Nat}
    (hn : 0 < n) :
    getRandomChars r [] n idx = (Res.err GenError.providerErr, idx + 1, [0]) := by
  cases n with
  | zero => omega
  | succ m =>
    rw [getRandomChars]
    cases hro : r idx (List.length ([] : List Char)) with
    | none => simp [hro]
    | some v =>
      have := hv _ _ _ hro
      simp at this

theorem minChars_zero {r : RandomIface} (hv : ValidR r) (hp : PosOk r)
    {cs : List charSet} {c0 : charSet}
    (hmem : c0 ∈ cs) (hset : c0.set = []) (hmin : 0 < c0.min) (idx : Nat) :
    0 ∈ (minChars r cs idx).2.2 := by
  induction cs generalizing idx with
  | nil => simp at hmem
  | cons c rest ih =>
    by_cases hc : c.set = [] ∧ 0 < c.min
    · have hg : getRandomChars r c.set c.min idx
          = (Res.err GenError.providerErr, idx + 1, [0]) := by
        rw [hc.1]
        exact getRandomChars_zeroSet hv hc.2
      rw [minChars, hg]
      simp
    · have htail : c0 ∈ rest := by
        rcases List.mem_cons.mp hmem with rfl | h2
        · exact absurd ⟨hset, hmin⟩ hc
        · exact h2
      by_cases hcs : c.set = []
      · have hm0 : c.min = 0 := by
          by_contra hne0
          exact hc ⟨hcs, Nat.pos_of_ne_zero hne0⟩
        have hg : getRandomChars r c.set c.min idx = (Res.ok [], idx, []) := by
          rw [hm0, getRandomChars]
        rw [minChars_head_ok hg]
        simpa using ih htail idx
      · obtain ⟨out, hg⟩ := getRandomChars_posOk hv hp hcs c.min idx
        rw [minChars_head_ok hg]
        rw [List.mem_append]
        exact Or.inr (ih htail _)

/-- State-passing rendering of the pointer-receiver method
`generator.getRandomLength`: the Go method reads the fields of `g` and
never assigns to them, so the generator state it returns is the one it
received. -/
def generator.getRandomLengthSt (g : generator) (r : RandomIface) (idx mi ma : Nat) :
    (Res Nat × Nat × List Nat) × generator :=
  (g.getRandomLength r idx mi ma, g)

/-- State-passing rendering of the pointer-receiver method
`generator.getRandomChars`, as for `getRandomLengthSt`. -/
def generator.getRandomCharsSt (g : generator) (r : RandomIface) (n idx : Nat) :
    (Res (List Char) × Nat × List Nat) × generator :=
  (g.getRandomChars r n idx, g)

/-- State-passing rendering of `generator.Generate`: the generator state is
threaded through the phases exactly as the Go method threads its receiver,
and returned alongside the result. -/
def generator.GenerateSt (g : generator) (r : RandomIface) (mi ma idx : Nat) :
    (Res (List Char) × Nat × List Nat) × generator :=
  match g.getRandomLengthSt r idx mi ma with
  | ((Res.ok len, idx1, tr1), g1) =>
    match g1.getRandomCharsSt r len idx1 with
    | ((Res.ok cs, idx2, tr2), g2) =>
      match shuffle r cs idx2 with
      | (res, idx3, tr3) => ((res, idx3, tr1 ++ tr2 ++ tr3), g2)
    | ((Res.err e, idx2, tr2), g2) => ((Res.err e, idx2, tr1 ++ tr2), g2)
    | ((Res.oob, idx2, tr2), g2) => ((Res.oob, idx2, tr1 ++ tr2), g2)
  | ((Res.err e, idx1, tr1), g1) => ((Res.err e, idx1, tr1), g1)
  | ((Res.oob, idx1, tr1), g1) => ((Res.oob, idx1, tr1), g1)

theorem shuffle_err {r : RandomIface} {chars : List Char} {idx : Nat}
    {e : GenError} {idx2 : Nat} {tr : List Nat}
    (h : shuffle r chars idx = (Res.err e, idx2, tr)) :
    e = GenError.providerErr ∧ ErrLast r idx tr := by
  simp only [shuffle] at h
  exact shuffleLoop_err h

theorem shuffle_idx {r : RandomIface} {chars : List Char} {idx : Nat}
    {res : Res (List Char)} {idx2 : Nat} {tr : List Nat}
    (h : shuffle r chars idx = (res, idx2, tr)) : idx2 = idx + tr.length := by
  simp only [shuffle] at h
  exact shuffleLoop_idx h

theorem Generate_ok_parts {g : generator} {r : RandomIface} {mi ma idx : Nat}
    {pw : List Char} {idx3 : Nat} {tr : List Nat}
    (h : g.Generate r mi ma idx = (Res.ok pw, idx3, tr)) :
    ∃ L i1 t1 cs i2 t2 t3,
      g.getRandomLength r idx mi ma = (Res.ok L, i1, t1) ∧
      g.getRandomChars r L i1 = (Res.ok cs, i2, t2) ∧
      shuffle r cs i2 = (Res.ok pw, idx3, t3) ∧
      tr = t1 ++ t2 ++ t3 := by
  rw [generator.Generate] at h
  split at h
  · rename_i L i1 t1 hlen
    split at h
    · rename_i cs i2 t2 hchars
      rcases hsh : shuffle r cs i2 with ⟨res3, i3, t3⟩
      rw [hsh] at h
      simp only [Prod.mk.injEq] at h
      obtain ⟨h1, rfl, rfl⟩ := h
      cases res3 with
      | ok out3 =>
        have : out3 = pw := by simpa using h1
        subst this
        exact ⟨L, i1, t1, cs, i2, t2, t3, hlen, hchars, hsh, rfl⟩
      | err e0 => simp at h1
      | oob => simp at h1
    · rename_i res0 i0 t0 hne hchars
      simp only [Prod.mk.injEq] at h
      exact absurd h.1 (fun hh => hne _ hh)
  · simp at h
  · simp at h

theorem Generate_idx {g : generator} {r : RandomIface} {mi ma idx : Nat}
    {res : Res (List Char)} {idx2 : Nat} {tr : List Nat}
    (h : g.Generate r mi ma idx = (res, idx2, tr)) : idx2 = idx + tr.length := by
  rw [generator.Generate] at h
  split at h
  · rename_i L i1 t1 hlen
    have hl := getRandomLength_idx hlen
    split at h
    · rename_i cs i2 t2 hchars
      have hc := ggrc_idx hchars
      rcases hsh : shuffle r cs i2 with ⟨res3, i3, t3⟩
      rw [hsh] at h
      have hs := shuffle_idx hsh
      simp only [Prod.mk.injEq] at h
      obtain ⟨-, rfl, rfl⟩ := h
      simp [hl, hc, hs]
      omega
    · rename_i res0 i0 t0 hne hchars
      have hc := ggrc_idx hchars
      simp only [Prod.mk.injEq] at h
      obtain ⟨-, rfl, rfl⟩ := h
      simp [hl, hc]
      omega
  · rename_i e0 i1 t1 hlen
    have hl := getRandomLength_idx hlen
    simp only [Prod.mk.injEq] at h
    obtain ⟨-, rfl, rfl⟩ := h
    exact hl
  · rename_i i1 t1 hlen
    have hl := getRandomLength_idx hlen
    simp only [Prod.mk.injEq] at h
    obtain ⟨-, rfl, rfl⟩ := h
    exact hl

theorem Generate_err {g : generator} {r : RandomIface} {mi ma idx : Nat}
    {e : GenError} {idx2 : Nat} {tr : List Nat}
    (h : g.Generate r mi ma idx = (Res.err e, idx2, tr)) :
    (e = GenError.invalidLength ∧ (ma < mi ∨ ma < g.min) ∧ tr = [] ∧ idx2 = idx) ∨
      (e = GenError.providerErr ∧ ErrLast r idx tr) := by
  rw [generator.Generate] at h
  split at h
  · rename_i L i1 t1 hlen
    have hl := getRandomLength_idx hlen
    split at h
    · rename_i cs i2 t2 hchars
      have hc := ggrc_idx hchars
      rcases hsh : shuffle r cs i2 with ⟨res3, i3, t3⟩
      rw [hsh] at h
      simp only [Prod.mk.injEq] at h
      obtain ⟨h1, -, rfl⟩ := h
      cases res3 with
      | ok o => simp at h1
      | err e0 =>
        have h1e : e0 = e := by simpa using h1
        subst h1e
        obtain ⟨he, hel⟩ := shuffle_err hsh
        refine Or.inr ⟨he, ?_⟩
        have h2 : ErrLast r (idx + (t1 ++ t2).length) t3 := by
          have : i2 = idx + (t1 ++ t2).length := by simp [hl, hc]; omega
          rwa [this] at hel
        simpa [List.append_assoc] using @ErrLast.prepend r idx (t1 ++ t2) t3 h2
      | oob => simp at h1
    · rename_i res0 i0 t0 hne hchars
      simp only [Prod.mk.injEq] at h
      obtain ⟨h1, -, rfl⟩ := h
      cases res0 with
      | ok o => exact absurd rfl (fun hh => hne o (h1 ▸ hh))
      | err e0 =>
        have h1e : e0 = e := by simpa using h1
        subst h1e
        obtain ⟨he, hel⟩ := ggrc_err (h1 ▸ hchars)
        exact Or.inr ⟨he, ErrLast.prepend (hl ▸ hel)⟩
      | oob => simp at h1
  · rename_i e0 i1 t1 hlen
    simp only [Prod.mk.injEq, Res.err.injEq] at h
    obtain ⟨h1, rfl, rfl⟩ := h
    subst h1
    rcases getRandomLength_err hlen with ⟨he, hcond, rfl, rfl⟩ | ⟨he, -, hel, -⟩
    · exact Or.inl ⟨he, hcond, rfl, rfl⟩
    · exact Or.inr ⟨he, hel⟩
  · rename_i i1 t1 hlen
    simp at h

theorem ggrc_len {g : generator} {r : RandomIface} {n idx : Nat}
    {out : List Char} {idx2 : Nat} {tr : List Nat}
    (hv : ValidR r) (hwf : WF g) (hmin : g.min ≤ n)
    (h : g.getRandomChars r n idx = (Res.ok out, idx2, tr)) : out.length = n := by
  obtain ⟨cs1, i1, t1, cs2, t2, hminc, hfill, rfl, -⟩ := ggrc_ok_parts h
  obtain ⟨hl1, -⟩ := minChars_ok hminc
  obtain ⟨hl2, -, -⟩ := fillChars_ok hv hwf.2 hfill
  rw [List.length_append, hl1, hl2, ← hwf.1]
  omega

theorem ggrc_trace_super {g : generator} {r : RandomIface} {n idx : Nat}
    (h0 : 0 ∈ (minChars r g.charsets idx).2.2) :
    0 ∈ (g.getRandomChars r n idx).2.2 := by
  rw [generator.getRandomChars]
  rcases hmin : minChars r g.charsets idx with ⟨res1, i1, t1⟩
  have h1 : 0 ∈ t1 := by simpa [hmin] using h0
  cases res1 with
  | ok cs1 =>
    rcases hfill : fillChars g r (n - g.min) i1 with ⟨res2, i2, t2⟩
    cases res2 <;> simp [hfill, h1]
  | err e => simp [h1]
  | oob => simp [h1]

/-- Every provider call recorded in trace `tr` (first call index `idx`)
returned a value. -/
def AllOk (r : RandomIface) (idx : Nat) (tr : List Nat) : Prop :=
  ∀ j b, tr.get? j = some b → ∃ v, r (idx + j) b = some v

theorem AllOk.nil {r : RandomIface} {idx : Nat} : AllOk r idx [] := by
  intro j b hb
  simp at hb

theorem AllOk.cons {r : RandomIface} {idx b : Nat} {tr : List Nat}
    (hb : ∃ v, r idx b = some v) (h : AllOk r (idx + 1) tr) :
    AllOk r idx (b :: tr) := by
  intro j b2 hb2
  cases j with
  | zero =>
    simp only [List.get?] at hb2
    obtain rfl : b = b2 := by simpa using hb2
    simpa using hb
  | succ j =>
    obtain ⟨v, hv⟩ := h j b2 (by simpa using hb2)
    refine ⟨v, ?_⟩
    have : idx + 1 + j = idx + (j + 1) := by omega
    rwa [this] at hv

theorem AllOk.append {r : RandomIface} {idx : Nat} {t1 t2 : List Nat}
    (h1 : AllOk r idx t1) (h2 : AllOk r (idx + t1.length) t2) :
    AllOk r idx (t1 ++ t2) := by
  intro j b hb
  by_cases hj : j < t1.length
  · exact h1 j b (by rwa [List.get?_append hj] at hb)
  · obtain ⟨v, hv⟩ := h2 (j - t1.length) b
      (by rwa [List.get?_append_right (by omega)] at hb)
    refine ⟨v, ?_⟩
    have : idx + t1.length + (j - t1.length) = idx + j := by omega
    rwa [this] at hv

theorem getRandomChars_allOk {r : RandomIface} {l : List Char} {n idx : Nat}
    {out : List Char} {idx2 : Nat} {tr : List Nat}
    (h : getRandomChars r l n idx = (Res.ok out, idx2, tr)) : AllOk r idx tr := by
  induction n generalizing idx out idx2 tr with
  | zero =>
    simp only [getRandomChars, Prod.mk.injEq] at h
    obtain ⟨-, -, rfl⟩ := h
    exact AllOk.nil
  | succ n ih =>
    rw [getRandomChars] at h
    split at h
    · simp at h
    · rename_i k hr
      split at h
      · simp at h
      · rename_i c hg
        split at h
        · rename_i rest i0 t0 hrec
          simp only [Prod.mk.injEq] at h
          obtain ⟨-, -, rfl⟩ := h
          exact AllOk.cons ⟨k, hr⟩ (ih hrec)
        · rename_i res0 i0 t0 hne hrec
          simp only [Prod.mk.injEq] at h
          exact absurd h.1 (fun hh => hne _ hh)

theorem minChars_allOk {r : RandomIface} {cs : List charSet} {idx : Nat}
    {out : List Char} {idx2 : Nat} {tr : List Nat}
    (h : minChars r cs idx = (Res.ok out, idx2, tr)) : AllOk r idx tr := by
  induction cs generalizing idx out idx2 tr with
  | nil =>
    simp only [minChars, Prod.mk.injEq] at h
    obtain ⟨-, -, rfl⟩ := h
    exact AllOk.nil
  | cons c rest ih =>
    rw [minChars] at h
    split at h
    · rename_i cs1 i1 t1 hg
      have hi1 := getRandomChars_idx hg
      split at h
      · rename_i cs2 i2 t2 hrec
        simp only [Prod.mk.injEq] at h
        obtain ⟨-, -, rfl⟩ := h
        exact AllOk.append (getRandomChars_allOk hg) (hi1 ▸ ih hrec)
      · rename_i res0 i0 t0 hne hrec
        simp only [Prod.mk.injEq] at h
        exact absurd h.1 (fun hh => hne _ hh)
    · rename_i res0 i0 t0 hne hg
      simp only [Prod.mk.injEq] at h
      exact absurd h.1 (fun hh => hne _ hh)

theorem fillChars_allOk {g : generator} {r : RandomIface} {m idx : Nat}
    {out : List Char} {idx2 : Nat} {tr : List Nat}
    (h : fillChars g r m idx = (Res.ok out, idx2, tr)) : AllOk r idx tr := by
  induction m generalizing idx out idx2 tr with
  | zero =>
    simp only [fillChars, Prod.mk.injEq] at h
    obtain ⟨-, -, rfl⟩ := h
    exact AllOk.nil
  | succ m ih =>
    rw [fillChars] at h
    split at h
    · simp at h
    · rename_i k hr
      split at h
      · rename_i rest i0 t0 hrec
        simp only [Prod.mk.injEq] at h
        obtain ⟨-, -, rfl⟩ := h
        exact AllOk.cons ⟨k, hr⟩ (ih hrec)
      · rename_i res0 i0 t0 hne hrec
        simp only [Prod.mk.injEq] at h
        exact absurd h.1 (fun hh => hne _ hh)

theorem shuffleLoop_allOk {r : RandomIface} {n rem i : Nat} {chars : List Char}
    {idx : Nat} {out : List Char} {idx2 : Nat} {tr : List Nat}
    (h : shuffleLoop r n rem i chars idx = (Res.ok out, idx2, tr)) :
    AllOk r idx tr := by
  induction rem generalizing i chars idx out idx2 tr with
  | zero =>
    simp only [shuffleLoop, Prod.mk.injEq] at h
    obtain ⟨-, -, rfl⟩ := h
    exact AllOk.nil
  | succ rem ih =>
    rw [shuffleLoop] at h
    split at h
    · simp at h
    · rename_i k hr
      split at h
      · simp at h
      · rename_i chars2 hsw
        rcases hrec : shuffleLoop r n rem (i + 1) chars2 (idx + 1) with ⟨res0, i0, t0⟩
        rw [hrec] at h
        simp only [Prod.mk.injEq] at h
        obtain ⟨h1, -, rfl⟩ := h
        cases res0 with
        | ok o => exact AllOk.cons ⟨k, hr⟩ (ih hrec)
        | err e0 => simp at h1
        | oob => simp at h1

theorem generate_allOk {g : generator} {r : RandomIface} {mi ma idx : Nat}
    {pw : List Char} {idx2 : Nat} {tr : List Nat}
    (h : g.Generate r mi ma idx = (Res.ok pw, idx2, tr)) : AllOk r idx tr := by
  obtain ⟨L, i1, t1, cs, i2, t2, t3, hlen, hchars, hsh, rfl⟩ := Generate_ok_parts h
  have hl := getRandomLength_idx hlen
  have hc := ggrc_idx hchars
  have h1 : AllOk r idx t1 := by
    obtain ⟨-, d, hd, -, -, rfl⟩ := getRandomLength_ok hlen
    exact AllOk.cons ⟨d, hd⟩ AllOk.nil
  have h2 : AllOk r i1 t2 := by
    obtain ⟨cs1, j1, u1, cs2, u2, hminc, hfill, -, rfl⟩ := ggrc_ok_parts hchars
    exact AllOk.append (minChars_allOk hminc) ((minChars_idx hminc) ▸ fillChars_allOk hfill)
  have h3 : AllOk r i2 t3 := by
    simp only [shuffle] at hsh
    exact shuffleLoop_allOk hsh
  rw [List.append_assoc]
  exact AllOk.append h1 (hl ▸ (AllOk.append h2 (hc ▸ h3)))

/-- C1: for every generator built by `NewGenerator` and every
contract-satisfying provider, a successful `Generate` call returns a
password that contains, for each registered character set, at least that
set's configured minimum number of characters drawn from that set
(counting membership in the set's character sequence). -/
theorem generate_meets_set_minimums {opts : List Options} {g : generator}
    (hbuild : NewGenerator opts = Except.ok g)
    {r : RandomIface} (hv : ValidR r) {mi ma idx : Nat}
    {pw : List Char} {idx2 : Nat} {tr : List Nat}
    (hgen : g.Generate r mi ma idx = (Res.ok pw, idx2, tr)) :
    ∀ c ∈ g.charsets, c.min ≤ pw.countP (fun x => decide (x ∈ c.set)) := by
  obtain ⟨L, i1, t1, cs, i2, t2, t3, hlen, hchars, hsh, -⟩ := Generate_ok_parts hgen
  obtain ⟨cs1, j1, u1, cs2, u2, hminc, hfill, rfl, -⟩ := ggrc_ok_parts hchars
  obtain ⟨hperm, -, -⟩ := shuffle_ok hsh
  intro c hc
  have hcount := (minChars_ok hminc).2 c hc
  rw [hperm.countP_eq, List.countP_append]
  omega

/-- C2: for a well-formed generator with `max ≥ min` and `max ≥ minTotal`,
when the provider succeeds the selected length is
`max(min, minTotal) + d` for `d` the result of a single provider call with
bound `max - max(min, minTotal) + 1`, so the selected length, and hence the
length of the password `Generate` returns, lies in
`[max(min, minTotal), max]`. -/
theorem generate_length_range {g : generator} (hwf : WF g)
    {r : RandomIface} (hv : ValidR r) {mi ma idx : Nat}
    (h1 : mi ≤ ma) (h2 : g.min ≤ ma) :
    (∀ L i1 t1, g.getRandomLength r idx mi ma = (Res.ok L, i1, t1) →
       ∃ d, r idx (ma - max mi g.min + 1) = some d ∧ L = max mi g.min + d ∧
         t1 = [ma - max mi g.min + 1] ∧ max mi g.min ≤ L ∧ L ≤ ma) ∧
    (∀ pw idx2 tr, g.Generate r mi ma idx = (Res.ok pw, idx2, tr) →
       max mi g.min ≤ pw.length ∧ pw.length ≤ ma) := by
  constructor
  · intro L i1 t1 h
    obtain ⟨-, d, hd, hL, -, ht⟩ := getRandomLength_ok h
    have hdlt : d < ma - max mi g.min + 1 := hv _ _ _ hd
    exact ⟨d, hd, hL, ht, by omega, by omega⟩
  · intro pw idx2 tr h
    obtain ⟨L, i1, t1, cs, i2, t2, t3, hlen, hchars, hsh, -⟩ := Generate_ok_parts h
    obtain ⟨-, d, hd, hL, -, -⟩ := getRandomLength_ok hlen
    have hdlt : d < ma - max mi g.min + 1 := hv _ _ _ hd
    have hgl : g.min ≤ L := by omega
    have hcl : cs.length = L := ggrc_len hv hwf hgl hchars
    have hperm := (shuffle_ok hsh).1
    rw [hperm.length_eq, hcl]
    omega

/-- C3: for a generator built by `NewGenerator`, `Generate(min, max)` fails
with `InvalidLengthError` (and produces no password) exactly when
`max < min` or `max` is below the sum of the per-set minimums. -/
theorem generate_invalid_length_iff {opts : List Options} {g : generator}
    (hbuild : NewGenerator opts = Except.ok g)
    (r : RandomIface) (mi ma idx : Nat) :
    (g.Generate r mi ma idx).1 = Res.err GenError.invalidLength ↔
      (ma < mi ∨ ma < sumMins g.charsets) := by
  have hmin : g.min = sumMins g.charsets := (NewGenerator_ok hbuild).2.1.1
  constructor
  · intro h
    rcases hres : g.Generate r mi ma idx with ⟨res, i2, t2⟩
    rw [hres] at h
    simp only at h
    subst h
    rcases Generate_err hres with ⟨-, hcond, -, -⟩ | ⟨he, -⟩
    · rwa [hmin] at hcond
    · exact absurd he (by decide)
  · intro hcond
    rw [← hmin] at hcond
    have hlen := @getRandomLength_invalid g r idx mi ma hcond
    rw [generator.Generate, hlen]

/-- C4: building a generator fails with `NoCharactersError` precisely when
the total pool size declared by the directives is `0`, which happens
precisely when every registered character set is empty (in particular when
none is registered); on that failure no generator value is produced. -/
theorem newGenerator_noChars_iff (opts : List Options) :
    (NewGenerator opts = Except.error GenError.noChars ↔ poolSize opts = 0) ∧
    (poolSize opts = 0 ↔
      ∀ s m, Options.WithCharacters s m ∈ opts → s = []) := by
  constructor
  · obtain ⟨-, -, h3⟩ := foldl_applyOption opts { charsets := [], min := 0, num := 0 }
    have hnum : (opts.foldl applyOption { charsets := [], min := 0, num := 0 }).num
        = poolSize opts := by
      rw [h3, sumLens_optSets]
      simp
    rw [NewGenerator]
    split
    · rename_i hz
      rw [hnum] at hz
      simp [hz]
    · rename_i hz
      rw [hnum] at hz
      simp [hz]
  · rw [poolSize, List.sum_eq_zero_iff]
    constructor
    · intro h s m hm
      have : s.length = 0 := by
        have := h s.length (List.mem_map.mpr ⟨Options.WithCharacters s m, hm, rfl⟩)
        exact this
      exact List.length_eq_zero.mp this
    · intro h x hx
      obtain ⟨o, ho, rfl⟩ := List.mem_map.mp hx
      cases o with
      | WithCharacters s m => simpa using congrArg List.length (h s m ho)
      | WithRandom => rfl

/-- C5: a successful `shuffle` permutes the sequence: the output is a
permutation (equal multiset) of the input, and the provider calls made are
exactly one draw with bound `length - i` for each position
`i = 0 .. length - 2` of the single left-to-right pass. -/
theorem shuffle_is_permutation {r : RandomIface} {chars : List Char}
    {idx : Nat} {out : List Char} {idx2 : Nat} {tr : List Nat}
    (h : shuffle r chars idx = (Res.ok out, idx2, tr)) :
    out.Perm chars ∧
      tr = (List.range (chars.length - 1)).map (fun j => chars.length - j) := by
  exact ⟨(shuffle_ok h).1, (shuffle_ok h).2.1⟩

/-- C6: `shuffle` of a single-element sequence is a no-op (no provider
calls, unchanged sequence, no error), but `shuffle` of an EMPTY sequence is
not: the `uint` loop bound `n - 1` underflows, the loop body runs, and the
provider is invoked with bound `0` (here with a contract-satisfying
provider, which must fail on bound `0`; the Go default provider panics).
This exhibits the code slip behind the spec sentence that the empty
sequence is a no-op. -/
theorem shuffle_singleton_noop_empty_bug :
    (∀ (r : RandomIface) (idx : Nat) (c : Char),
       shuffle r [c] idx = (Res.ok [c], idx, [])) ∧
    shuffle rpos [] 0 = (Res.err GenError.providerErr, 1, [0]) := by
  constructor
  · intro r idx c
    rfl
  · show shuffleLoop rpos 0 (if (0 : Nat) = 0 then UINT_MAX else 0 - 1) 0 [] 0 = _
    rw [if_pos rfl]
    have hum : UINT_MAX = (2 ^ 64 - 2) + 1 := by norm_num [UINT_MAX]
    rw [hum]
    simp [shuffleLoop, rpos]

/-- C7: in the uniform-fill phase, the subtract-until-it-fits mapping of a
drawn index is exactly indexing into the virtual concatenation of all
registered sets in registration order, and a successful fill phase for a
selected length `n` appends exactly `n - minTotal` characters, each being
the virtually-indexed character of its draw. -/
theorem fill_phase_virtual_pool :
    (∀ (cs : List charSet) (k : Nat),
       pickFromPool cs k = ((cs.map charSet.set).flatten).get? k) ∧
    (∀ (g : generator) (r : RandomIface), ValidR r → WF g →
       ∀ (n idx : Nat) (out : List Char) (idx2 : Nat) (tr : List Nat),
         fillChars g r (n - g.min) idx = (Res.ok out, idx2, tr) →
         out.length = n - g.min ∧
         ∀ j, j < n - g.min → ∃ k, r (idx + j) g.num = some k ∧
           out.get? j = ((g.charsets.map charSet.set).flatten).get? k) := by
  refine ⟨pickFromPool_eq, ?_⟩
  intro g r hv hwf n idx out idx2 tr h
  obtain ⟨h1, -, h3⟩ := fillChars_ok hv hwf.2 h
  exact ⟨h1, h3⟩

/-- C8: a provider failure aborts `Generate` immediately: whenever the
result is the provider's error, the failing call is the last call made
(nothing runs after it, whichever phase it occurred in) and the result
carries no password; and whenever a password is returned, every provider
call made during the run returned a value — so a failing call can never be
followed by more work or a password. -/
theorem generate_provider_error_propagates {g : generator} {r : RandomIface}
    {mi ma idx : Nat} {res : Res (List Char)} {idx2 : Nat} {tr : List Nat}
    (h : g.Generate r mi ma idx = (res, idx2, tr)) :
    idx2 = idx + tr.length ∧
      (res = Res.err GenError.providerErr →
        ∃ t0 b, tr = t0 ++ [b] ∧ r (idx + t0.length) b = none) ∧
      (∀ pw, res = Res.ok pw → AllOk r idx tr) := by
  refine ⟨Generate_idx h, ?_, ?_⟩
  · intro herr
    subst herr
    rcases Generate_err h with ⟨he, -, -, -⟩ | ⟨-, hel⟩
    · exact absurd he (by decide)
    · exact hel
  · intro pw hok
    subst hok
    exact generate_allOk h

/-- C9: `Generate` never mutates the generator configuration: the
state-passing rendering of the method returns the generator it received,
and its result agrees with the direct rendering, for every provider and
every pair of bounds — so the character sets, their minimums, `minTotal`
and `poolSize` are identical before and after every call. -/
theorem generate_preserves_config (g : generator) (r : RandomIface)
    (mi ma idx : Nat) :
    (g.GenerateSt r mi ma idx).2 = g ∧
    (g.GenerateSt r mi ma idx).1 = g.Generate r mi ma idx := by
  rcases h1 : g.getRandomLength r idx mi ma with ⟨res1, i1, t1⟩
  cases res1 with
  | ok L =>
    rcases h2 : g.getRandomChars r L i1 with ⟨res2, i2, t2⟩
    cases res2 with
    | ok cs =>
      rcases h3 : shuffle r cs i2 with ⟨res3, i3, t3⟩
      simp [generator.GenerateSt, generator.Generate,
        generator.getRandomLengthSt, generator.getRandomCharsSt, h1, h2, h3]
    | err e =>
      simp [generator.GenerateSt, generator.Generate,
        generator.getRandomLengthSt, generator.getRandomCharsSt, h1, h2]
    | oob =>
      simp [generator.GenerateSt, generator.Generate,
        generator.getRandomLengthSt, generator.getRandomCharsSt, h1, h2]
  | err e =>
    simp [generator.GenerateSt, generator.Generate,
      generator.getRandomLengthSt, generator.getRandomCharsSt, h1]
  | oob =>
    simp [generator.GenerateSt, generator.Generate,
      generator.getRandomLengthSt, generator.getRandomCharsSt, h1]

/-- C10: a configuration with an empty character set carrying a positive
minimum, alongside at least one non-empty set, passes `NewGenerator`
(only the total pool size is checked), and every `Generate` call whose
length selection goes through (provider succeeding on all positive
bounds) reaches the minimum-satisfaction phase and invokes the provider
with bound `0`, violating the provider's positive-bound precondition. -/
theorem empty_set_zero_bound {opts : List Options} {g : generator}
    (hbuild : NewGenerator opts = Except.ok g)
    {m : Nat} (hm : 0 < m) (hmem : (⟨[], m⟩ : charSet) ∈ g.charsets)
    {r : RandomIface} (hv : ValidR r) (hp : PosOk r)
    {mi ma idx : Nat} (h1 : mi ≤ ma) (h2 : g.min ≤ ma) :
    0 ∈ (g.Generate r mi ma idx).2.2 := by
  have hcond : ¬(ma < mi ∨ ma < g.min) := by omega
  have hbound : 0 < ma - max mi g.min + 1 := by omega
  cases hr : r idx (ma - max mi g.min + 1) with
  | none => exact absurd hr (hp _ _ hbound)
  | some d =>
    have hlen : g.getRandomLength r idx mi ma
        = (Res.ok (d + max mi g.min), idx + 1, [ma - max mi g.min + 1]) := by
      rw [generator.getRandomLength, if_neg hcond, effMin_eq, hr]
    have hmem0 : 0 ∈ (minChars r g.charsets (idx + 1)).2.2 :=
      minChars_zero hv hp hmem rfl hm (idx + 1)
    have hsup : 0 ∈ (g.getRandomChars r (d + max mi g.min) (idx + 1)).2.2 :=
      ggrc_trace_super hmem0
    rw [generator.Generate]
    simp only [hlen]
    rcases h2c : g.getRandomChars r (d + max mi g.min) (idx + 1) with ⟨res2, i2, t2⟩
    have ht2 : 0 ∈ t2 := by simpa [h2c] using hsup
    cases res2 with
    | ok cs =>
      rcases h3 : shuffle r cs i2 with ⟨res3, i3, t3⟩
      simp [h2c, h3, ht2]
    | err e => simp [h2c, ht2]
    | oob => simp [h2c, ht2]

theorem posOk_rpos : PosOk rpos := by
  intro i b hb
  unfold rpos
  have : b ≠ 0 := by omega
  simp [this]

/-- Concrete configuration used to exercise the theorems: one set of two
characters with minimum one. -/
def optsW : List Options := [Options.WithCharacters ['a', 'b'] 1]

/-- The generator `NewGenerator optsW` builds. -/
def gW : generator := { charsets := [{ set := ['a', 'b'], min := 1 }], min := 1, num := 2 }

/-- Concrete configuration with an empty set carrying a positive minimum
next to a non-empty set. -/
def optsZ : List Options :=
  [Options.WithCharacters [] 1, Options.WithCharacters ['a'] 0]

/-- The generator `NewGenerator optsZ` builds. -/
def gZ : generator :=
  { charsets := [{ set := [], min := 1 }, { set := ['a'], min := 0 }], min := 1, num := 1 }

theorem generate_meets_set_minimums_witness :
    1 ≤ List.countP (fun x => decide (x ∈ (['a', 'b'] : List Char))) ['b'] :=
  @generate_meets_set_minimums optsW gW rfl rmod validR_rmod 1 2 0 ['b'] 2 [2, 2]
    (by decide) ⟨['a', 'b'], 1⟩ (by decide)

theorem generate_length_range_witness :
    max 1 gW.min ≤ (['b'] : List Char).length ∧ (['b'] : List Char).length ≤ 2 :=
  (@generate_length_range gW (by decide) rmod validR_rmod 1 2 0 (by decide)
    (by decide)).2 ['b'] 2 [2, 2] (by decide)

theorem generate_invalid_length_iff_witness :
    (gW.Generate rmod 5 3 0).1 = Res.err GenError.invalidLength :=
  (@generate_invalid_length_iff optsW gW rfl rmod 5 3 0).mpr (Or.inl (by decide))

theorem shuffle_is_permutation_witness :
    (['a', 'b'] : List Char).Perm ['a', 'b'] ∧
      ([2] : List Nat) = (List.range ((['a', 'b'] : List Char).length - 1)).map
        (fun j => (['a', 'b'] : List Char).length - j) :=
  @shuffle_is_permutation rmod ['a', 'b'] 0 ['a', 'b'] 1 [2] (by decide)

theorem fill_phase_virtual_pool_witness :
    (['a', 'b'] : List Char).length = 3 - gW.min :=
  (fill_phase_virtual_pool.2 gW rmod validR_rmod (by decide) 3 0 ['a', 'b'] 2 [2, 2]
    (by decide)).1

theorem generate_provider_error_propagates_witness :
    ∃ t0 b, ([2] : List Nat) = t0 ++ [b] ∧ rfail (0 + t0.length) b = none :=
  (@generate_provider_error_propagates gW rfail 1 2 0
    (Res.err GenError.providerErr) 1 [2] (by decide)).2.1 rfl

theorem empty_set_zero_bound_witness :
    0 ∈ (gZ.Generate rpos 1 1 0).2.2 :=
  @empty_set_zero_bound optsZ gZ rfl 1 (by decide) (by decide) rpos validR_rpos
    posOk_rpos 1 1 0 (by decide) (by decide)
